import Mathlib

/-!
Verification of the MunByn Firebase dashboard (TypeScript sources) against its
natural-language specification.  Each definition below is a shallow embedding of
a function from the repository; theorems settle the spec claims about them.
-/

namespace MunByn

/-! ### JS strings as lists of UTF-16 code units

JavaScript strings are sequences of 16-bit code units; `charCodeAt` reads a
unit, `String.fromCharCode` truncates its argument modulo 2^16.  We embed them
as `List Nat`. -/

/-- JS code-unit string. -/
abbrev JSString := List Nat

/-- JS `<` on strings: code-unit lexicographic order. -/
def jsLt : JSString → JSString → Bool
  | _, [] => false
  | [], _ :: _ => true
  | a :: s, b :: t => if a < b then true else if b < a then false else jsLt s t

/-- JS `<=` on strings: `s <= t` is `!(t < s)` for the total code-unit
order. -/
def jsLe (s t : JSString) : Bool := !(jsLt t s)

/-- Boolean prefix test on lists (decidable, executable). -/
def isPrefixL [DecidableEq α] : List α → List α → Bool
  | [], _ => true
  | _ :: _, [] => false
  | a :: s, b :: t => if a = b then isPrefixL s t else false

/-- Embeds `nextString` from `useFirestoreSearchWithServerSidePagination.ts`:
`if (!str) return ""; return str.slice(0,-1) +
String.fromCharCode(str.slice(-1).charCodeAt(0) + 1)`.
`String.fromCharCode` truncates modulo 2^16. -/
def nextString : JSString → JSString
  | [] => [0xf8ff]
  | [c] => [(c + 1) % 65536]
  | c :: c2 :: rest => c :: nextString (c2 :: rest)

/-! ### The pagination hook: filters and query constraints -/

/-- Firestore `where` operators used by the hook (`ExactOp` plus the range ops
the prefix emulation produces). -/
inductive WhereOp
  | eq | inOp | ne | arrayContains | arrayContainsAny | notIn | ge | lt
  deriving DecidableEq, Repr

/-- Filter operators of the hook's small filter language (`Op` in the source). -/
inductive FilterOp
  | eq | inOp | ne | arrayContains | arrayContainsAny | notIn | startsWith
  deriving DecidableEq, Repr

/-- A `SearchFilter` from the source. -/
structure SearchFilter where
  field : String
  op : FilterOp
  value : JSString
  deriving DecidableEq, Repr

/-- Sort direction. -/
inductive Direction
  | asc | desc
  deriving DecidableEq, Repr

/-- A `QueryConstraint` as built by the hook. -/
inductive QueryConstraint
  | whereC (field : String) (op : WhereOp) (value : JSString)
  | orderByC (field : String) (dir : Direction)
  | orderByDocId (dir : Direction)
  deriving DecidableEq, Repr

/-- Map an exact (non-`startsWith`) filter op to its `where` op. -/
def exactOp : FilterOp → WhereOp
  | .eq => .eq
  | .inOp => .inOp
  | .ne => .ne
  | .arrayContains => .arrayContains
  | .arrayContainsAny => .arrayContainsAny
  | .notIn => .notIn
  | .startsWith => .ge

/-- The pair of range constraints the prefix emulation generates for one
`startsWith` filter: `where(field, >=, value)` and
`where(field, <, nextString value)`. -/
def rangePair (f : SearchFilter) : List QueryConstraint :=
  [.whereC f.field .ge f.value, .whereC f.field .lt (nextString f.value)]

/-- The loop body of `buildConstraints`: a `startsWith` filter pushes its range
pair onto `constraints` and records the first range field
(`if (!rangeField) rangeField = f.field`); every other filter appends a
`where` to `equalityConstraints`. -/
def buildStep (acc : List QueryConstraint × List QueryConstraint × Option String)
    (f : SearchFilter) :
    List QueryConstraint × List QueryConstraint × Option String :=
  match f.op with
  | .startsWith =>
      (acc.1 ++ rangePair f, acc.2.1, acc.2.2.orElse (fun _ => some f.field))
  | op =>
      (acc.1, acc.2.1 ++ [.whereC f.field (exactOp op) f.value], acc.2.2)

/-- The `for (const f of filters)` loop of `buildConstraints`. -/
def buildLoop (filters : List SearchFilter) :
    List QueryConstraint × List QueryConstraint × Option String :=
  filters.foldl buildStep ([], [], none)

/-- Embeds `buildConstraints` from the hook: range constraints first, then
equality constraints, then the `orderBy` decided by range field / option /
`documentId()`.  Returns the constraints with the effective order-by field. -/
def buildConstraints (filters : List SearchFilter) (orderByField : Option String)
    (direction : Direction) : List QueryConstraint × Option String :=
  let acc := buildLoop filters
  match acc.2.2 with
  | some rangeField =>
      (acc.1 ++ acc.2.1 ++ [.orderByC rangeField direction], some rangeField)
  | none =>
      match orderByField with
      | some ob => (acc.1 ++ acc.2.1 ++ [.orderByC ob direction], some ob)
      | none => (acc.1 ++ acc.2.1 ++ [.orderByDocId direction], none)

/-! ### The pagination hook: state and page runs -/

/-- Hook state: `data`, `page`, `hasNext`, `loading`, `error`, and the cursor
array `cursorsRef.current` (index 0 = before page 1, unset entries behave as
`null`/`undefined`, both falsy). -/
structure HookState (α : Type) where
  data : List α
  page : Nat
  hasNext : Bool
  loading : Bool
  error : Option String
  cursors : Nat → Option α

/-- State after the reset effect (`cursorsRef.current = [null]; setPage(1);
setData([]); setHasNext(false); setError(null)`). -/
def initialState (α : Type) : HookState α :=
  ⟨[], 1, false, false, none, fun _ => none⟩

/-- Point update of the cursor array (`cursorsRef.current[i] = v`). -/
def setCursor (cs : Nat → Option α) (i : Nat) (v : Option α) : Nat → Option α :=
  fun j => if j = i then v else cs j

/-- Firestore `startAfter(c)`: the result list resumes strictly after the first
occurrence of document `c` in query order. -/
def afterDoc [DecidableEq α] (c : α) : List α → List α
  | [] => []
  | x :: t => if x = c then t else afterDoc c t

/-- `startAfter` applied only when the cursor is non-null (`after ? query(...,
startAfter(after), take) : query(..., take)`). -/
def startAfterD [DecidableEq α] : Option α → List α → List α
  | none, l => l
  | some c, l => afterDoc c l

/-- A JS exception as seen by the catch block: `e?.message` may be absent. -/
abbrev JSErr := Option String

/-- The body of `runPage` from `const docs = snap.docs` onward, applied to the
documents the backend returned: slices off the probe document, sets `data`,
`hasNext`, the cursor for this page, and `page`; `finally` clears `loading`. -/
def runPageSuccess [DecidableEq α] (docs : List α) (pageSize pageIndex : Nat)
    (s : HookState α) : HookState α :=
  let moreThanPage := decide (pageSize < docs.length)
  let pageDocs := if pageSize < docs.length then docs.take pageSize else docs
  { data := pageDocs,
    page := pageIndex,
    hasNext := moreThanPage,
    loading := false,
    error := none,
    cursors := setCursor s.cursors pageIndex pageDocs.getLast? }

/-- Embeds `runPage` when the backend query succeeds.  `l` is the full list of
documents matching the constraints in query order; the query asks for
`pageSize + 1` documents starting after the stored cursor of the previous
page. -/
def runPage [DecidableEq α] (l : List α) (pageSize pageIndex : Nat)
    (s : HookState α) : HookState α :=
  runPageSuccess ((startAfterD (s.cursors (pageIndex - 1)) l).take (pageSize + 1))
    pageSize pageIndex s

/-- Embeds one `runPage` call given the backend outcome: the `try` body on
success, the `catch` block (`setError(e?.message ?? "Failed to fetch data")`)
plus `finally` (`setLoading(false)`) on an exception. -/
def runPageAttempt [DecidableEq α] (resp : Except JSErr (List α))
    (pageSize pageIndex : Nat) (s : HookState α) : HookState α :=
  match resp with
  | .ok docs => runPageSuccess docs pageSize pageIndex s
  | .error e =>
      { s with error := some (e.getD "Failed to fetch data"), loading := false }

/-- One page load against a stream of backend responses: exactly one response
is consumed per `runPage` call; the hook never reissues the query. -/
def runPageSeq [DecidableEq α] (resps : List (Except JSErr (List α)))
    (pageSize pageIndex : Nat) (s : HookState α) :
    HookState α × List (Except JSErr (List α)) :=
  match resps with
  | [] => (s, [])
  | r :: rest => (runPageAttempt r pageSize pageIndex s, rest)

/-- Embeds `nextPage`: `if (loading || !hasNext) return; await runPage(page+1)`. -/
def nextPage [DecidableEq α] (l : List α) (pageSize : Nat) (s : HookState α) :
    HookState α :=
  if s.loading || !s.hasNext then s else runPage l pageSize (s.page + 1) s

/-- State after loading page 1 and then invoking `nextPage` `k` times. -/
def afterNexts [DecidableEq α] (l : List α) (pageSize : Nat) : Nat → HookState α
  | 0 => runPage l pageSize 1 (initialState α)
  | k + 1 => nextPage l pageSize (afterNexts l pageSize k)

/-! ### CSV export (`handleExportCSV` in `ExportModal.tsx`) -/

/-- A processed export record (the `TrackingItem` pushed onto `items`). -/
structure TrackingItem where
  tracking : String
  carrier : String
  timestamp : String
  deviceId : String
  latitude : String
  longitude : String
  username : String
  deriving DecidableEq, Repr

/-- Wrap a serialized field value in double quotes (the backquote template
`"${value}"` used for every column). -/
def quoteField (s : String) : String := "\"" ++ s ++ "\""

/-- Double every embedded double quote in a character list. -/
def escListQ (l : List Char) : List Char :=
  l.flatMap fun c => if c = '"' then ['"', '"'] else [c]

/-- `item.carrier.replace(/"/g, '""')`: double every embedded double quote.
Only the carrier column goes through this. -/
def escapeQuotes (s : String) : String :=
  ⟨escListQ s.data⟩

/-- The header line written first into `csvContent`. -/
def csvHeader : String :=
  "Tracking Number,Carrier,Timestamp,Device ID,Latitude,Longitude,Username"

/-- One data row of the generated CSV (without the trailing newline): every
column quoted, only the carrier quote-escaped. -/
def csvRow (it : TrackingItem) : String :=
  quoteField it.tracking ++ "," ++ quoteField (escapeQuotes it.carrier) ++ "," ++
    quoteField it.timestamp ++ "," ++ quoteField it.deviceId ++ "," ++
    quoteField it.latitude ++ "," ++ quoteField it.longitude ++ "," ++
    quoteField it.username

/-- A data row as the spec's words describe it: the record's seven field values
each wrapped in double quotes and separated by commas, with no escaping.  Kept
for comparison with `csvRow`. -/
def specRawRow (it : TrackingItem) : String :=
  quoteField it.tracking ++ "," ++ quoteField it.carrier ++ "," ++
    quoteField it.timestamp ++ "," ++ quoteField it.deviceId ++ "," ++
    quoteField it.latitude ++ "," ++ quoteField it.longitude ++ "," ++
    quoteField it.username

/-- `csvContent`: starts as the header plus `\n`, then appends each row plus
`\n` in turn. -/
def csvContent (items : List TrackingItem) : String :=
  items.foldl (fun acc it => acc ++ csvRow it ++ "\n") (csvHeader ++ "\n")

/-- Join lines, each followed by a newline. -/
def linesJoin : List String → String
  | [] => ""
  | l :: ls => l ++ "\n" ++ linesJoin ls

/-- The download attribute value: `tracking_export_${format(now, 'yyyy-MM-dd')}.csv`. -/
def exportFilename (dateStr : String) : String :=
  "tracking_export_" ++ dateStr ++ ".csv"

/-! ### A standard CSV line parser (RFC-4180 style, all fields quoted)

Used to state the round-trip claim: fields are wrapped in double quotes,
embedded quotes are doubled, fields are separated by commas. -/

/-- Prepend a character to the first (current) field of a parse result. -/
def consCur (c : Char) : List (List Char) → List (List Char)
  | [] => [[c]]
  | f :: fs => (c :: f) :: fs

/-- Parse the remainder of a line after the opening quote of the current field.
`""` is an escaped quote; a closing quote must be followed by end of line or by
a comma and the next field's opening quote. -/
def parseRest : List Char → Option (List (List Char))
  | [] => none
  | c :: rest =>
    if c = '"' then
      match rest with
      | [] => some [[]]
      | d :: rest2 =>
        if d = '"' then (parseRest rest2).map (consCur '"')
        else if d = ',' then
          match rest2 with
          | [] => none
          | e :: rest3 =>
            if e = '"' then (parseRest rest3).map (fun fs => [] :: fs) else none
        else none
    else (parseRest rest).map (consCur c)

/-- Parse a full CSV line whose every field is quoted. -/
def parseLine : List Char → Option (List (List Char))
  | [] => none
  | c :: rest => if c = '"' then parseRest rest else none

/-- Parse a CSV line into field strings. -/
def parseCSVLine (s : String) : Option (List String) :=
  (parseLine s.data).map (·.map fun l => ⟨l⟩)

/-- No double quote occurs in the string. -/
abbrev quoteFree (s : String) : Prop := ∀ c ∈ s.data, c ≠ '"'

/-! ### Date-range validation (`handleExportCSV` and `handleDeleteByDateRange`) -/

/-- Outcome of the validation prologue of a handler: either an early `return`
with a user-facing toast message (the backend is never reached), or the handler
proceeds to issue backend calls. -/
inductive ValidationOutcome
  | reject (msg : String)
  | proceed
  deriving DecidableEq, Repr

/-- Milliseconds per day, the divisor in the handlers' day arithmetic. -/
def msPerDay : Int := 1000 * 3600 * 24

/-- `Math.ceil((end - start) / msPerDay)` for `start <= end`. -/
def ceilDays (startMs endMs : Int) : Int :=
  ((endMs - startMs).toNat + (msPerDay.toNat - 1)) / msPerDay.toNat

/-- The validation prologue of `handleExportCSV` (`ExportModal.tsx`): only the
presence of both dates is checked before the Firestore query is built. -/
def handleExportCSVValidation (startDate endDate : Option Int) :
    ValidationOutcome :=
  match startDate, endDate with
  | some _, some _ => .proceed
  | _, _ => .reject "Date range is required for export"

/-- The validation prologue of `handleDeleteByDateRange` (admin page): presence
of both dates, ordering, and the 90-day maximum span are all checked before any
Firestore access. -/
def handleDeleteByDateRangeValidation (startDate endDate : Option Int) :
    ValidationOutcome :=
  match startDate, endDate with
  | some s, some e =>
      if e < s then .reject "End date cannot be before start date"
      else if 90 < ceilDays s e then .reject "Date range cannot exceed 90 days"
      else .proceed
  | _, _ => .reject "Please select both start and end dates"

/-! ### Device registration (`registerDeviceIfNew` in the device service) -/

/-- A `devices` document. -/
structure Device where
  deviceId : String
  label : String
  registeredAt : Nat
  lastSeenAt : Nat
  isActive : Bool
  scanCount : Option Nat
  deriving DecidableEq, Repr

/-- The `devices` collection: association of document ids to documents. -/
abbrev DeviceStore := List (String × Device)

/-- Read the document with the given id (`transaction.get(deviceRef)`). -/
def lookupDevice (st : DeviceStore) (id : String) : Option Device :=
  (st.find? fun e => e.1 == id).map (·.2)

/-- `transaction.update(deviceRef, fields)`: rewrite the fields of the document
with the given id, leaving every other document unchanged. -/
def updateDevice (st : DeviceStore) (id : String) (f : Device → Device) :
    DeviceStore :=
  st.map fun e => if e.1 = id then (e.1, f e.2) else e

/-- Embeds `generateNextDeviceLabel`: counts the whole `devices` collection and
returns `Scanner Device ${count + 1}`. -/
def generateNextDeviceLabel (st : DeviceStore) : String :=
  "Scanner Device " ++ toString (st.length + 1)

/-- Embeds `registerDeviceIfNew`: throws on an empty device id, then runs a
transactional read-check-write.  If the document exists, only `lastSeenAt` and
`scanCount` are rewritten and the stored label is returned; otherwise a fresh
label is generated and a new document is created (`transaction.set`). -/
def registerDeviceIfNew (now : Nat) (st : DeviceStore) (deviceId : String) :
    Except String (String × DeviceStore) :=
  if deviceId = "" then .error "Device ID is required"
  else
    match lookupDevice st deviceId with
    | some d =>
        .ok (d.label,
          updateDevice st deviceId fun dd =>
            { dd with lastSeenAt := now, scanCount := some (dd.scanCount.getD 0 + 1) })
    | none =>
        let label := generateNextDeviceLabel st
        .ok (label,
          st ++ [(deviceId,
            { deviceId := deviceId, label := label, registeredAt := now,
              lastSeenAt := now, isActive := true, scanCount := some 1 })])

/-! ### Carrier-name normalization -/

/-- JS `String.prototype.includes`: contiguous substring test. -/
def hasSub : List Char → List Char → Bool
  | [], sub => sub.isEmpty
  | s@(_ :: t), sub => isPrefixL sub s || hasSub t sub

/-- The inline normalization in `loadTimeChartData` (`ChartsSection.tsx`). -/
def normalizeCarrierName (s : List Char) : List Char :=
  if hasSub s "FedEx".data && hasSub s "Express".data then "FedEx Express".data
  else if hasSub s "FedEx".data && hasSub s "Ground".data then "FedEx Ground".data
  else if hasSub s "UPS".data then "UPS".data
  else s

/-- Embeds `formatCarrierName` (`CarrierBreakdown`): short names unchanged,
known substrings mapped to fixed short forms, otherwise the first 8 characters
plus an ellipsis. -/
def formatCarrierName (s : List Char) : List Char :=
  if s.length ≤ 10 then s
  else if hasSub s "FedEx Express".data then "FedEx Exp".data
  else if hasSub s "FedEx Ground".data then "FedEx Gnd".data
  else if hasSub s "USPS".data then "USPS".data
  else if hasSub s "Amazon".data then "Amazon".data
  else s.take 8 ++ "...".data

/-! ## Theorems -/

/-- C1 counterexample: with `startDate` one day after `endDate` (an inverted
range, concretely start = 86400000 ms, end = 0 ms), `handleExportCSV`'s
validation proceeds to the backend query instead of rejecting, so the CSV
export operation does not validate date ordering (nor the 90-day span, which a
fortiori it cannot check). -/
theorem handleExportCSV_skips_ordering_check :
    handleExportCSVValidation (some 86400000) (some 0) =
      ValidationOutcome.proceed ∧ (0 : Int) < 86400000 :=
  ⟨rfl, by decide⟩

/-- C1 (amended): the bulk-deletion handler validates all three date-range
conditions (presence of both dates, ordering, 90-day maximum span) before any
backend call, while the CSV export handler validates only the presence of both
dates; in every failing case the handler rejects with a user-facing message and
returns without touching the backend. -/
theorem dateRange_validation_spec (s e : Option Int) :
    (handleDeleteByDateRangeValidation s e = ValidationOutcome.proceed ↔
      ∃ sd ed, s = some sd ∧ e = some ed ∧ sd ≤ ed ∧ ceilDays sd ed ≤ 90) ∧
    (handleExportCSVValidation s e = ValidationOutcome.proceed ↔
      ∃ sd ed, s = some sd ∧ e = some ed) ∧
    (handleDeleteByDateRangeValidation s e = ValidationOutcome.proceed ∨
      ∃ msg, handleDeleteByDateRangeValidation s e = ValidationOutcome.reject msg) ∧
    (handleExportCSVValidation s e = ValidationOutcome.proceed ∨
      ∃ msg, handleExportCSVValidation s e = ValidationOutcome.reject msg) := by
  refine ⟨?_, ?_, ?_, ?_⟩
  · cases s with
    | none => simp [handleDeleteByDateRangeValidation]
    | some sd =>
      cases e with
      | none => simp [handleDeleteByDateRangeValidation]
      | some ed =>
        simp only [handleDeleteByDateRangeValidation]
        constructor
        · intro h
          split at h
          · simp_all
          · split at h
            · simp_all
            · refine ⟨sd, ed, rfl, rfl, by omega, by omega⟩
        · rintro ⟨sd2, ed2, h1, h2, hle, hspan⟩
          cases h1; cases h2
          rw [if_neg (by omega), if_neg (by omega)]
  · cases s <;> cases e <;> simp [handleExportCSVValidation]
  · cases s with
    | none => exact Or.inr ⟨_, rfl⟩
    | some sd =>
      cases e with
      | none => exact Or.inr ⟨_, rfl⟩
      | some ed =>
        simp only [handleDeleteByDateRangeValidation]
        split
        · exact Or.inr ⟨_, rfl⟩
        · split
          · exact Or.inr ⟨_, rfl⟩
          · exact Or.inl rfl
  · cases s <;> cases e <;> simp [handleExportCSVValidation]

/-- C9: when the page query throws, the hook surfaces the exception's message
as a string (or `"Failed to fetch data"` when the exception carries no
message), clears `loading`, leaves `data`, `page`, `hasNext` and the cursor
array untouched, and consumes exactly one backend response — the query is not
reissued and the hook contains no retry. -/
theorem runPage_error_no_retry {α : Type} [DecidableEq α] (e : JSErr)
    (pageSize pageIndex : Nat) (s : HookState α)
    (rest : List (Except JSErr (List α))) :
    (runPageAttempt (Except.error e) pageSize pageIndex s).error =
        some (e.getD "Failed to fetch data") ∧
      (runPageAttempt (Except.error (some "boom") : Except JSErr (List α))
          pageSize pageIndex s).error = some "boom" ∧
      (runPageAttempt (Except.error e) pageSize pageIndex s).loading = false ∧
      (runPageAttempt (Except.error e) pageSize pageIndex s).data = s.data ∧
      (runPageAttempt (Except.error e) pageSize pageIndex s).page = s.page ∧
      (runPageAttempt (Except.error e) pageSize pageIndex s).hasNext = s.hasNext ∧
      (runPageAttempt (Except.error e) pageSize pageIndex s).cursors = s.cursors ∧
      runPageSeq (Except.error e :: rest) pageSize pageIndex s =
        (runPageAttempt (Except.error e) pageSize pageIndex s, rest) :=
  ⟨rfl, rfl, rfl, rfl, rfl, rfl, rfl, rfl⟩

/-- C6: `runPage` requests `pageSize + 1` documents (starting after the stored
cursor of the previous page), exposes the first `pageSize` of them in query
order as the page data — hence at most `pageSize` — and sets `hasNext` exactly
when the backend returned strictly more than `pageSize` documents, which
happens exactly when strictly more than `pageSize` documents match the
constraints beyond the cursor. -/
theorem runPage_pageSize_hasNext {α : Type} [DecidableEq α] (l : List α)
    (pageSize pageIndex : Nat) (s : HookState α) :
    (runPage l pageSize pageIndex s).data =
        ((startAfterD (s.cursors (pageIndex - 1)) l).take (pageSize + 1)).take
          pageSize ∧
      (runPage l pageSize pageIndex s).data.length ≤ pageSize ∧
      ((runPage l pageSize pageIndex s).hasNext = true ↔
        pageSize <
          ((startAfterD (s.cursors (pageIndex - 1)) l).take (pageSize + 1)).length) ∧
      (pageSize <
          ((startAfterD (s.cursors (pageIndex - 1)) l).take (pageSize + 1)).length ↔
        pageSize < (startAfterD (s.cursors (pageIndex - 1)) l).length) := by
  set fetched := (startAfterD (s.cursors (pageIndex - 1)) l).take (pageSize + 1)
    with hf
  have hlen : fetched.length =
      min (pageSize + 1) (startAfterD (s.cursors (pageIndex - 1)) l).length := by
    rw [hf, List.length_take]
  refine ⟨?_, ?_, ?_, ?_⟩
  · show (if pageSize < fetched.length then fetched.take pageSize else fetched) = _
    split
    · rfl
    · rename_i h
      exact (List.take_of_length_le (by omega)).symm
  · show (if pageSize < fetched.length then fetched.take pageSize else fetched).length ≤ _
    split
    · simp [List.length_take]
    · omega
  · show decide (pageSize < fetched.length) = true ↔ _
    simp
  · omega

/-- Unfolding lemma: `nextString` on a cons with a non-empty tail keeps the
head and recurses. -/
theorem nextString_cons (a : Nat) (l : JSString) (h : l ≠ []) :
    nextString (a :: l) = a :: nextString l := by
  cases l with
  | nil => exact absurd rfl h
  | cons x xs => rfl

/-- `nextString` bumps the final code unit modulo 2^16. -/
theorem nextString_append_last (v : JSString) (c : Nat) :
    nextString (v ++ [c]) = v ++ [(c + 1) % 65536] := by
  induction v with
  | nil => rfl
  | cons a v ih =>
    rw [List.cons_append, nextString_cons a (v ++ [c]) (by simp), ih,
      List.cons_append]

/-- The step with a `startsWith` filter. -/
theorem buildStep_startsWith (acc : List QueryConstraint × List QueryConstraint ×
    Option String) (f : SearchFilter) (h : f.op = .startsWith) :
    buildStep acc f =
      (acc.1 ++ rangePair f, acc.2.1, acc.2.2.orElse (fun _ => some f.field)) := by
  simp [buildStep, h]

/-- The step with an exact filter. -/
theorem buildStep_exact (acc : List QueryConstraint × List QueryConstraint ×
    Option String) (f : SearchFilter) (h : ¬ f.op = .startsWith) :
    buildStep acc f =
      (acc.1, acc.2.1 ++ [.whereC f.field (exactOp f.op) f.value], acc.2.2) := by
  cases hop : f.op <;> simp_all [buildStep]

/-- The fold in `buildConstraints` splits into the range pairs of the
`startsWith` filters followed by the `where`s of the exact filters. -/
theorem buildLoop_components (filters : List SearchFilter)
    (cs eqs : List QueryConstraint) (rf : Option String) :
    (filters.foldl buildStep (cs, eqs, rf)).1 =
        cs ++ (filters.filter fun f => f.op == .startsWith).flatMap rangePair ∧
      (filters.foldl buildStep (cs, eqs, rf)).2.1 =
        eqs ++ (filters.filter fun f => !(f.op == .startsWith)).map
          (fun f => .whereC f.field (exactOp f.op) f.value) := by
  induction filters generalizing cs eqs rf with
  | nil => simp
  | cons f fs ih =>
    by_cases hop : f.op = .startsWith
    · rw [List.foldl_cons, buildStep_startsWith _ _ hop]
      refine ⟨(ih _ _ _).1.trans ?_, (ih _ _ _).2.trans ?_⟩ <;>
        simp [List.filter_cons, hop]
    · rw [List.foldl_cons, buildStep_exact _ _ hop]
      refine ⟨(ih _ _ _).1.trans ?_, (ih _ _ _).2.trans ?_⟩ <;>
        simp [List.filter_cons, hop]

/-- C5: for every filter list, `buildConstraints` turns each `startsWith`
filter on field `F` with value `v` into exactly the adjacent pair
`where(F, >=, v)`, `where(F, <, nextString v)` — prefix search as the
half-open range `[v, nextString v)` — placed before the exact-op constraints
and the final `orderBy`; and `nextString` maps the empty string to the
one-unit string `0xf8ff` and otherwise increments the last UTF-16 code unit
(JS `String.fromCharCode` truncates modulo 2^16). -/
theorem buildConstraints_startsWith_range (filters : List SearchFilter)
    (orderByField : Option String) (direction : Direction) :
    (∃ tail,
        (buildConstraints filters orderByField direction).1 =
          (filters.filter fun f => f.op == .startsWith).flatMap rangePair ++
            (filters.filter fun f => !(f.op == .startsWith)).map
              (fun f => .whereC f.field (exactOp f.op) f.value) ++
            [tail]) ∧
      nextString [] = [0xf8ff] ∧
      ∀ (v : JSString) (c : Nat), nextString (v ++ [c]) = v ++ [(c + 1) % 65536] := by
  refine ⟨?_, rfl, nextString_append_last⟩
  have h1 := (buildLoop_components filters [] [] none).1
  have h2 := (buildLoop_components filters [] [] none).2
  rcases hrf : (buildLoop filters).2.2 with _ | r
  · rcases orderByField with _ | ob
    · refine ⟨.orderByDocId direction, ?_⟩
      simp only [buildConstraints, hrf]
      rw [show (buildLoop filters).1 = _ from h1, show (buildLoop filters).2.1 = _ from h2]
      simp
    · refine ⟨.orderByC ob direction, ?_⟩
      simp only [buildConstraints, hrf]
      rw [show (buildLoop filters).1 = _ from h1, show (buildLoop filters).2.1 = _ from h2]
      simp
  · refine ⟨.orderByC r direction, ?_⟩
    simp only [buildConstraints, hrf]
    rw [show (buildLoop filters).1 = _ from h1, show (buildLoop filters).2.1 = _ from h2]
    simp

/-- Reading the updated id returns the rewritten document. -/
theorem lookupDevice_update_self (st : DeviceStore) (id : String)
    (f : Device → Device) :
    lookupDevice (updateDevice st id f) id = (lookupDevice st id).map f := by
  induction st with
  | nil => rfl
  | cons e st ih =>
    by_cases h : e.1 = id
    · simp [lookupDevice, updateDevice, List.find?_cons, h]
    · simp only [lookupDevice, updateDevice, List.map_cons, if_neg h] at *
      rw [List.find?_cons, List.find?_cons]
      have hbeq : (e.1 == id) = false := by simp [h]
      simp only [hbeq]
      exact ih

/-- Reading any other id is unaffected by the update. -/
theorem lookupDevice_update_other (st : DeviceStore) (id j : String)
    (f : Device → Device) (h : j ≠ id) :
    lookupDevice (updateDevice st id f) j = lookupDevice st j := by
  induction st with
  | nil => rfl
  | cons e st ih =>
    simp only [lookupDevice, updateDevice, List.map_cons, List.find?_cons] at ih ⊢
    by_cases he : e.1 = id
    · have hbeq : ((id : String) == j) = false := beq_eq_false_iff_ne.mpr (Ne.symm h)
      rw [if_pos he]
      simp only [he, hbeq]
      exact ih
    · rw [if_neg he]
      cases hbeq : (e.1 == j) with
      | true => simp [hbeq]
      | false =>
        simp only [hbeq]
        exact ih

/-- A lookup that succeeds in a store still succeeds unchanged after appending
documents on the right. -/
theorem lookupDevice_append_left (st rest : DeviceStore) (j : String)
    (d : Device) (h : lookupDevice st j = some d) :
    lookupDevice (st ++ rest) j = some d := by
  induction st with
  | nil => simp [lookupDevice] at h
  | cons e st ih =>
    simp only [lookupDevice, List.cons_append, List.find?_cons] at *
    cases hbeq : (e.1 == j) with
    | true => simpa [hbeq] using h
    | false =>
      simp only [hbeq] at h ⊢
      exact ih h

/-- Appending a fresh document makes it visible under its id when the id was
absent before. -/
theorem lookupDevice_append_new (st : DeviceStore) (id : String) (d : Device)
    (h : lookupDevice st id = none) :
    lookupDevice (st ++ [(id, d)]) id = some d := by
  induction st with
  | nil => simp [lookupDevice]
  | cons e st ih =>
    simp only [lookupDevice, List.cons_append, List.find?_cons] at *
    cases hbeq : (e.1 == id) with
    | true => simp [hbeq] at h
    | false =>
      simp only [hbeq] at h ⊢
      exact ih h

/-- C2: `registerDeviceIfNew` maps a device id to exactly one label.  With a
non-empty id: when a document already exists for the id, the transaction
returns its stored label and rewrites only `lastSeenAt` and `scanCount`
(every other field, the label included, is unchanged, and no other document is
touched); when no document exists, a fresh label is generated and stored under
the id.  In both cases the label of every previously registered device is
preserved, so registration never assigns a second label to a device id. -/
theorem registerDeviceIfNew_unique_label (st : DeviceStore) (id : String)
    (now : Nat) (hid : id ≠ "") :
    (∀ d, lookupDevice st id = some d →
        registerDeviceIfNew now st id =
          .ok (d.label,
            updateDevice st id fun dd =>
              { dd with lastSeenAt := now,
                        scanCount := some (dd.scanCount.getD 0 + 1) }) ∧
        lookupDevice
            (updateDevice st id fun dd =>
              { dd with lastSeenAt := now,
                        scanCount := some (dd.scanCount.getD 0 + 1) }) id =
          some { d with lastSeenAt := now,
                        scanCount := some (d.scanCount.getD 0 + 1) } ∧
        ∀ j d2, lookupDevice st j = some d2 →
          (lookupDevice
              (updateDevice st id fun dd =>
                { dd with lastSeenAt := now,
                          scanCount := some (dd.scanCount.getD 0 + 1) }) j).map
              (·.label) = some d2.label) ∧
      (lookupDevice st id = none →
        registerDeviceIfNew now st id =
          .ok (generateNextDeviceLabel st,
            st ++ [(id,
              { deviceId := id, label := generateNextDeviceLabel st,
                registeredAt := now, lastSeenAt := now, isActive := true,
                scanCount := some 1 })]) ∧
        lookupDevice
            (st ++ [(id,
              { deviceId := id, label := generateNextDeviceLabel st,
                registeredAt := now, lastSeenAt := now, isActive := true,
                scanCount := some 1 })]) id =
          some { deviceId := id, label := generateNextDeviceLabel st,
                 registeredAt := now, lastSeenAt := now, isActive := true,
                 scanCount := some 1 } ∧
        ∀ j d2, lookupDevice st j = some d2 →
          (lookupDevice
              (st ++ [(id,
                { deviceId := id, label := generateNextDeviceLabel st,
                  registeredAt := now, lastSeenAt := now, isActive := true,
                  scanCount := some 1 })]) j).map (·.label) = some d2.label) := by
  constructor
  · intro d hd
    refine ⟨?_, ?_, ?_⟩
    · simp [registerDeviceIfNew, hid, hd]
    · rw [lookupDevice_update_self, hd]
      rfl
    · intro j d2 hj
      by_cases hji : j = id
      · subst hji
        rw [lookupDevice_update_self, hj]
        rw [hj] at hd
        cases hd
        rfl
      · rw [lookupDevice_update_other st id j _ hji, hj]
        rfl
  · intro hnone
    refine ⟨?_, ?_, ?_⟩
    · simp [registerDeviceIfNew, hid, hnone]
    · exact lookupDevice_append_new st id _ hnone
    · intro j d2 hj
      rw [lookupDevice_append_left st _ j d2 hj]
      rfl

/-- C2 witness: registering an already-known device returns its existing label
and keeps every stored label; registering a fresh id creates label
`Scanner Device 2` in a one-device store. -/
theorem registerDeviceIfNew_unique_label_witness :
    ("x" : String) ≠ "" ∧
      registerDeviceIfNew 5
          [("x", ⟨"x", "Scanner Device 1", 1, 1, true, some 3⟩)] "x" =
        .ok ("Scanner Device 1",
          [("x", ⟨"x", "Scanner Device 1", 1, 5, true, some 4⟩)]) := by
  constructor
  · decide
  · have h := (registerDeviceIfNew_unique_label
      [("x", ⟨"x", "Scanner Device 1", 1, 1, true, some 3⟩)] "x" 5
      (by decide)).1 ⟨"x", "Scanner Device 1", 1, 1, true, some 3⟩ (by rfl)
    exact h.1.trans (by rfl)

/-- A prefix is no longer than the list. -/
theorem isPrefixL_length {α : Type} [DecidableEq α] :
    ∀ (sub s : List α), isPrefixL sub s = true → sub.length ≤ s.length := by
  intro sub
  induction sub with
  | nil => intro s _; simp
  | cons c cs ih =>
    intro s h
    cases s with
    | nil => simp [isPrefixL] at h
    | cons a t =>
      simp only [isPrefixL] at h
      split at h
      · simpa using ih t h
      · exact absurd h (by simp)

/-- A substring is no longer than the list. -/
theorem hasSub_length :
    ∀ (s sub : List Char), hasSub s sub = true → sub.length ≤ s.length := by
  intro s
  induction s with
  | nil =>
    intro sub h
    simp only [hasSub, List.isEmpty_iff] at h
    simp [h]
  | cons a t ih =>
    intro sub h
    simp only [hasSub, Bool.or_eq_true] at h
    rcases h with h | h
    · exact isPrefixL_length sub (a :: t) h
    · exact le_trans (ih sub h) (by simp)

/-- Prefixes persist under appending on the right. -/
theorem isPrefixL_append {α : Type} [DecidableEq α] :
    ∀ (sub x y : List α), isPrefixL sub x = true → isPrefixL sub (x ++ y) = true := by
  intro sub
  induction sub with
  | nil => intro x y _; rfl
  | cons c cs ih =>
    intro x y h
    cases x with
    | nil => simp [isPrefixL] at h
    | cons a t =>
      simp only [isPrefixL, List.cons_append] at h ⊢
      split at h
      · rw [if_pos (by assumption)]
        exact ih t y h
      · exact absurd h (by simp)

/-- Substrings persist under appending on the right. -/
theorem hasSub_append_right :
    ∀ (x y sub : List Char), hasSub x sub = true → hasSub (x ++ y) sub = true := by
  intro x
  induction x with
  | nil =>
    intro y sub h
    simp only [hasSub, List.isEmpty_iff] at h
    subst h
    cases y with
    | nil => rfl
    | cons b u => simp [hasSub, isPrefixL]
  | cons a t ih =>
    intro y sub h
    simp only [hasSub, Bool.or_eq_true, List.cons_append] at h ⊢
    rcases h with h | h
    · exact Or.inl (isPrefixL_append sub (a :: t) y h)
    · exact Or.inr (ih y sub h)

/-- A dot-free list that is a prefix of `x ++ D`, with `D` all dots, is already
a prefix of `x`. -/
theorem isPrefixL_no_dot :
    ∀ (sub x D : List Char), (∀ c ∈ sub, c ≠ '.') → (∀ c ∈ D, c = '.') →
      isPrefixL sub (x ++ D) = true → isPrefixL sub x = true := by
  intro sub
  induction sub with
  | nil => intro x D _ _ _; rfl
  | cons c cs ih =>
    intro x D hsub hD h
    cases x with
    | nil =>
      cases D with
      | nil => simp [isPrefixL] at h
      | cons d ds =>
        simp only [List.nil_append, isPrefixL] at h
        split at h
        · rename_i hcd
          exact absurd (hcd.trans (hD d (by simp))) (hsub c (by simp))
        · exact absurd h (by simp)
    | cons a t =>
      simp only [List.cons_append, isPrefixL] at h ⊢
      split at h
      · rw [if_pos (by assumption)]
        exact ih t D (fun e he => hsub e (by simp [he])) hD h
      · exact absurd h (by simp)

/-- An all-dots list contains no non-empty dot-free substring. -/
theorem hasSub_all_dots :
    ∀ (D sub : List Char), (∀ c ∈ D, c = '.') → sub ≠ [] →
      (∀ c ∈ sub, c ≠ '.') → hasSub D sub = false := by
  intro D
  induction D with
  | nil =>
    intro sub _ hne _
    simpa [hasSub, List.isEmpty_iff] using hne
  | cons d ds ih =>
    intro sub hD hne hsub
    simp only [hasSub, Bool.or_eq_false_iff]
    constructor
    · cases sub with
      | nil => exact absurd rfl hne
      | cons c cs =>
        simp only [isPrefixL]
        rw [if_neg]
        intro hcd
        exact hsub c (by simp) (hcd.trans (hD d (by simp)))
    · exact ih sub (fun e he => hD e (by simp [he])) hne hsub

/-- A dot-free substring of `x ++ D`, with `D` all dots, already occurs in
`x`. -/
theorem hasSub_no_dot :
    ∀ (x D sub : List Char), (∀ c ∈ sub, c ≠ '.') → sub ≠ [] →
      (∀ c ∈ D, c = '.') → hasSub (x ++ D) sub = true → hasSub x sub = true := by
  intro x
  induction x with
  | nil =>
    intro D sub hsub hne hD h
    rw [List.nil_append, hasSub_all_dots D sub hD hne hsub] at h
    exact absurd h (by simp)
  | cons a t ih =>
    intro D sub hsub hne hD h
    simp only [List.cons_append, hasSub, Bool.or_eq_true] at h ⊢
    rcases h with h | h
    · exact Or.inl (isPrefixL_no_dot sub (a :: t) D hsub hD h)
    · exact Or.inr (ih D sub hsub hne hD h)

/-- Taking exactly the length of the left part of an append returns it. -/
theorem takeAppendLen {α : Type} :
    ∀ (a b : List α), (a ++ b).take a.length = a := by
  intro a b
  induction a with
  | nil => rfl
  | cons x t ih => simp [ih]

/-- Idempotence of the chart normalization. -/
theorem normalizeCarrierName_idem (s : List Char) :
    normalizeCarrierName (normalizeCarrierName s) = normalizeCarrierName s := by
  by_cases h1 : (hasSub s "FedEx".data && hasSub s "Express".data) = true
  · have hs : normalizeCarrierName s = "FedEx Express".data := by
      unfold normalizeCarrierName
      rw [if_pos h1]
    rw [hs]
    decide
  · by_cases h2 : (hasSub s "FedEx".data && hasSub s "Ground".data) = true
    · have hs : normalizeCarrierName s = "FedEx Ground".data := by
        unfold normalizeCarrierName
        rw [if_neg h1, if_pos h2]
      rw [hs]
      decide
    · by_cases h3 : hasSub s "UPS".data = true
      · have hs : normalizeCarrierName s = "UPS".data := by
          unfold normalizeCarrierName
          rw [if_neg h1, if_neg h2, if_pos h3]
        rw [hs]
        decide
      · have hs : normalizeCarrierName s = s := by
          unfold normalizeCarrierName
          rw [if_neg h1, if_neg h2, if_neg h3]
        rw [hs, hs]

/-- Idempotence of the display formatter. -/
theorem formatCarrierName_idem (s : List Char) :
    formatCarrierName (formatCarrierName s) = formatCarrierName s := by
  by_cases hlen : s.length ≤ 10
  · have hs : formatCarrierName s = s := by
      unfold formatCarrierName
      rw [if_pos hlen]
    rw [hs, hs]
  · by_cases h2 : hasSub s "FedEx Express".data = true
    · have hs : formatCarrierName s = "FedEx Exp".data := by
        unfold formatCarrierName
        rw [if_neg hlen, if_pos h2]
      rw [hs]
      decide
    · by_cases h3 : hasSub s "FedEx Ground".data = true
      · have hs : formatCarrierName s = "FedEx Gnd".data := by
          unfold formatCarrierName
          rw [if_neg hlen, if_neg h2, if_pos h3]
        rw [hs]
        decide
      · by_cases h4 : hasSub s "USPS".data = true
        · have hs : formatCarrierName s = "USPS".data := by
            unfold formatCarrierName
            rw [if_neg hlen, if_neg h2, if_neg h3, if_pos h4]
          rw [hs]
          decide
        · by_cases h5 : hasSub s "Amazon".data = true
          · have hs : formatCarrierName s = "Amazon".data := by
              unfold formatCarrierName
              rw [if_neg hlen, if_neg h2, if_neg h3, if_neg h4, if_pos h5]
            rw [hs]
            decide
          · have hs : formatCarrierName s = s.take 8 ++ "...".data := by
              unfold formatCarrierName
              rw [if_neg hlen, if_neg h2, if_neg h3, if_neg h4, if_neg h5]
            rw [hs]
            have hlen8 : (s.take 8).length = 8 := by
              rw [List.length_take]
              omega
            have hlent : (s.take 8 ++ "...".data).length = 11 := by
              rw [List.length_append, hlen8]
              rfl
            have hnoUSPS : ¬ hasSub (s.take 8 ++ "...".data) "USPS".data = true := by
              intro hc
              apply h4
              have h8 : hasSub (s.take 8) "USPS".data = true :=
                hasSub_no_dot (s.take 8) "...".data "USPS".data
                  (by decide) (by decide) (by decide) hc
              have hfull := hasSub_append_right (s.take 8) (s.drop 8) "USPS".data h8
              rwa [List.take_append_drop] at hfull
            have hnoAmazon : ¬ hasSub (s.take 8 ++ "...".data) "Amazon".data = true := by
              intro hc
              apply h5
              have h8 : hasSub (s.take 8) "Amazon".data = true :=
                hasSub_no_dot (s.take 8) "...".data "Amazon".data
                  (by decide) (by decide) (by decide) hc
              have hfull := hasSub_append_right (s.take 8) (s.drop 8) "Amazon".data h8
              rwa [List.take_append_drop] at hfull
            have hnoFE : ¬ hasSub (s.take 8 ++ "...".data) "FedEx Express".data = true := by
              intro hc
              have hle := hasSub_length _ _ hc
              rw [hlent] at hle
              exact absurd hle (by decide)
            have hnoFG : ¬ hasSub (s.take 8 ++ "...".data) "FedEx Ground".data = true := by
              intro hc
              have hle := hasSub_length _ _ hc
              rw [hlent] at hle
              exact absurd hle (by decide)
            have htake : (s.take 8 ++ "...".data).take 8 = s.take 8 := by
              nth_rewrite 1 [← hlen8]
              exact takeAppendLen (s.take 8) "...".data
            unfold formatCarrierName
            rw [if_neg (by rw [hlent]; decide), if_neg hnoFE, if_neg hnoFG,
              if_neg hnoUSPS, if_neg hnoAmazon, htake]

/-- C7: carrier-name normalization is idempotent, both for the chart
normalization of `loadTimeChartData` (`ChartsSection.tsx`) and for the display
formatter `formatCarrierName` (`CarrierBreakdown`): applying either function
twice equals applying it once, for every carrier string. -/
theorem carrierNormalization_idempotent (s : List Char) :
    normalizeCarrierName (normalizeCarrierName s) = normalizeCarrierName s ∧
      formatCarrierName (formatCarrierName s) = formatCarrierName s :=
  ⟨normalizeCarrierName_idem s, formatCarrierName_idem s⟩

/-- Computation rule: nothing is below the empty string. -/
theorem jsLt_nil_right (u : JSString) : jsLt u [] = false := by
  cases u <;> rfl

/-- Computation rule for `jsLt` on two non-empty strings. -/
theorem jsLt_cons_cons (a b : Nat) (s t : JSString) :
    jsLt (a :: s) (b :: t) =
      if a < b then true else if b < a then false else jsLt s t := rfl

/-- With a last code unit below `0xFFFF`, the half-open range
`[s, nextString s)` under code-unit lexicographic order captures exactly the
strings with `s` as a prefix. -/
theorem nextString_range_iff (s : JSString) :
    ∀ (c : Nat) (t : JSString), s.getLast? = some c → c < 65535 →
      ((jsLe s t = true ∧ jsLt t (nextString s) = true) ↔
        isPrefixL s t = true) := by
  induction s with
  | nil =>
    intro c t h _
    simp at h
  | cons a s' ih =>
    intro c t hlast hc
    cases s' with
    | nil =>
      have hca : c = a := by
        simp only [List.getLast?_singleton, Option.some.injEq] at hlast
        exact hlast.symm
      subst hca
      have hmod : (c + 1) % 65536 = c + 1 := Nat.mod_eq_of_lt (by omega)
      cases t with
      | nil => simp [jsLe, jsLt, isPrefixL]
      | cons b u =>
        show ((!jsLt (b :: u) [c]) = true ∧
            jsLt (b :: u) [(c + 1) % 65536] = true) ↔ _
        rw [hmod]
        simp only [jsLt_cons_cons, jsLt_nil_right, isPrefixL]
        rcases Nat.lt_trichotomy c b with h1 | h1 | h1
        · simp [show ¬ b < c by omega, show c < b from h1,
            show ¬ b < c + 1 by omega, show ¬ c = b by omega]
        · subst h1
          simp [show ¬ c < c by omega, show c < c + 1 by omega]
        · simp [show b < c from h1, show b < c + 1 by omega,
            show ¬ c = b by omega]
    | cons x xs =>
      have hlast' : (x :: xs).getLast? = some c := by
        rw [← hlast]
        exact List.getLast?_cons_cons.symm
      cases t with
      | nil => simp [jsLe, jsLt, isPrefixL]
      | cons b u =>
        show ((!jsLt (b :: u) (a :: x :: xs)) = true ∧
            jsLt (b :: u) (a :: nextString (x :: xs)) = true) ↔ _
        simp only [jsLt_cons_cons, isPrefixL]
        rcases Nat.lt_trichotomy a b with h1 | h1 | h1
        · simp [show ¬ b < a by omega, show a < b from h1,
            show ¬ a = b by omega]
        · subst h1
          simp only [show ¬ a < a by omega, if_neg, if_false, ite_self,
            reduceIte]
          simpa [jsLe] using ih c u hlast' hc
        · simp [show b < a from h1, show ¬ a = b by omega]

/-- With a last code unit equal to `0xFFFF`, the bump wraps to code unit 0, so
`nextString s` sorts strictly before `s` itself. -/
theorem nextString_wrap_lt (s : JSString) :
    s.getLast? = some 65535 → jsLt (nextString s) s = true := by
  induction s with
  | nil => intro h; simp at h
  | cons a s' ih =>
    intro hlast
    cases s' with
    | nil =>
      have hca : a = 65535 := by
        simpa [List.getLast?_singleton] using hlast
      subst hca
      decide
    | cons x xs =>
      have hlast' : (x :: xs).getLast? = some 65535 := by
        rw [← hlast]
        exact List.getLast?_cons_cons.symm
      show jsLt (a :: nextString (x :: xs)) (a :: x :: xs) = true
      rw [jsLt_cons_cons, if_neg (lt_irrefl a), if_neg (lt_irrefl a)]
      exact ih hlast'

/-- With a last code unit equal to `0xFFFF`, the half-open range
`[s, nextString s)` is empty. -/
theorem nextString_wrap_empty (s : JSString) :
    s.getLast? = some 65535 →
      ∀ t, ¬ (jsLe s t = true ∧ jsLt t (nextString s) = true) := by
  induction s with
  | nil => intro h; simp at h
  | cons a s' ih =>
    intro hlast t
    cases s' with
    | nil =>
      have hca : a = 65535 := by
        simpa [List.getLast?_singleton] using hlast
      subst hca
      cases t with
      | nil => decide
      | cons b u =>
        rintro ⟨h1, h2⟩
        have hns : nextString [65535] = [0] := rfl
        rw [hns, jsLt_cons_cons, jsLt_nil_right] at h2
        simp at h2
    | cons x xs =>
      have hlast' : (x :: xs).getLast? = some 65535 := by
        rw [← hlast]
        exact List.getLast?_cons_cons.symm
      cases t with
      | nil =>
        rintro ⟨h1, _⟩
        simp [jsLe, jsLt] at h1
      | cons b u =>
        rintro ⟨h1, h2⟩
        have h2' : jsLt (b :: u) (a :: nextString (x :: xs)) = true := h2
        rw [jsLt_cons_cons] at h2'
        have h1' : (!jsLt (b :: u) (a :: x :: xs)) = true := h1
        rw [jsLt_cons_cons] at h1'
        rcases Nat.lt_trichotomy b a with hb | hb | hb
        · rw [if_pos hb] at h1'
          simp at h1'
        · subst hb
          rw [if_neg (lt_irrefl b), if_neg (lt_irrefl b)] at h1' h2'
          exact ih hlast' u ⟨h1', h2'⟩
        · rw [if_neg (by omega), if_pos hb] at h2'
          exact absurd h2' (by simp)

/-- C10: `nextString ""` is the one-unit string `0xf8ff`; for a string whose
last UTF-16 code unit is below `0xFFFF`, a string `t` lies in the half-open
range `[s, nextString s)` under code-unit lexicographic order exactly when `s`
is a prefix of `t`; and for a string ending in code unit `0xFFFF` the bump
wraps to 0 (JS `String.fromCharCode` truncates modulo 2^16), so
`nextString s < s` and the range `[s, nextString s)` is empty — prefix search
silently matches nothing for such inputs. -/
theorem nextString_prefix_range :
    nextString [] = [0xf8ff] ∧
      (∀ (s t : JSString) (c : Nat), s.getLast? = some c → c < 65535 →
        ((jsLe s t = true ∧ jsLt t (nextString s) = true) ↔
          isPrefixL s t = true)) ∧
      (∀ s : JSString, s.getLast? = some 65535 →
        jsLt (nextString s) s = true ∧
          ∀ t, ¬ (jsLe s t = true ∧ jsLt t (nextString s) = true)) :=
  ⟨rfl, fun s t c hlast hc => nextString_range_iff s c t hlast hc,
    fun s hlast => ⟨nextString_wrap_lt s hlast, nextString_wrap_empty s hlast⟩⟩

/-- C10 witness: the range characterization applied to the concrete prefix
pair `[70, 101] ⊑ [70, 101, 100]`, and the wrap behaviour at the one-unit
string `0xFFFF`. -/
theorem nextString_prefix_range_witness :
    (([70, 101] : JSString).getLast? = some 101 ∧ (101 : Nat) < 65535 ∧
        ((jsLe [70, 101] [70, 101, 100] = true ∧
            jsLt [70, 101, 100] (nextString [70, 101]) = true) ↔
          isPrefixL ([70, 101] : JSString) [70, 101, 100] = true)) ∧
      (([65535] : JSString).getLast? = some 65535 ∧
        jsLt (nextString [65535]) [65535] = true) :=
  ⟨⟨rfl, by decide,
      nextString_prefix_range.2.1 [70, 101] [70, 101, 100] 101 rfl (by decide)⟩,
    ⟨rfl, (nextString_prefix_range.2.2 [65535] rfl).1⟩⟩

/-- String append acts as list append on the underlying characters. -/
theorem data_append (s t : String) : (s ++ t).data = s.data ++ t.data := rfl

/-- Underlying characters of the one-character quote string. -/
theorem quote_data : ("\x22" : String).data = ['\x22'] := rfl

/-- Underlying characters of the one-character comma string. -/
theorem comma_data : ("," : String).data = [','] := rfl

/-- Rebuilding a string from its characters is the identity. -/
theorem mk_data (s : String) : (⟨s.data⟩ : String) = s := rfl

/-- Two strings with the same characters are equal. -/
theorem strExt {s t : String} (h : s.data = t.data) : s = t := by
  cases s
  cases t
  exact congrArg String.mk h

/-- Unfolding: an ordinary character extends the current field. -/
theorem parseRest_cons_ne (c : Char) (rest : List Char) (hc : ¬ c = '\x22') :
    parseRest (c :: rest) = (parseRest rest).map (consCur c) := by
  rw [parseRest.eq_def]
  simp [hc]

/-- Unfolding: a doubled quote is an escaped quote in the current field. -/
theorem parseRest_esc (rest : List Char) :
    parseRest ('\x22' :: '\x22' :: rest) = (parseRest rest).map (consCur '\x22') := by
  rw [parseRest.eq_def]
  simp

/-- Unfolding: closing quote, separator, opening quote starts the next
field. -/
theorem parseRest_close_mid (t : List Char) :
    parseRest ('\x22' :: ',' :: '\x22' :: t) = (parseRest t).map (fun fs => [] :: fs) :=
  rfl

/-- Unfolding: a closing quote at the end of the line closes the last
field. -/
theorem parseRest_close_end : parseRest ['\x22'] = some [[]] := rfl

/-- Parsing a quote-free field closing the line. -/
theorem parseRest_noquote_end :
    ∀ (f : List Char), (∀ c ∈ f, c ≠ '\x22') →
      parseRest (f ++ ['\x22']) = some [f] := by
  intro f hf
  induction f with
  | nil => exact parseRest_close_end
  | cons c t ih =>
    have hc : ¬ c = '\x22' := hf c (by simp)
    show parseRest (c :: (t ++ ['\x22'])) = _
    rw [parseRest_cons_ne c _ hc, ih (fun e he => hf e (by simp [he]))]
    rfl

/-- Parsing a quote-free field followed by a separator and the next field's
opening quote. -/
theorem parseRest_noquote_mid :
    ∀ (f t : List Char), (∀ c ∈ f, c ≠ '\x22') →
      parseRest (f ++ '\x22' :: ',' :: '\x22' :: t) = (parseRest t).map (f :: ·) := by
  intro f
  induction f with
  | nil =>
    intro t _
    exact parseRest_close_mid t
  | cons c g ih =>
    intro t hf
    have hc : ¬ c = '\x22' := hf c (by simp)
    show parseRest (c :: (g ++ '\x22' :: ',' :: '\x22' :: t)) = _
    rw [parseRest_cons_ne c _ hc, ih t (fun e he => hf e (by simp [he]))]
    cases parseRest t with
    | none => rfl
    | some fs => rfl

/-- Parsing a quote-escaped field followed by a separator and the next field's
opening quote recovers the unescaped field. -/
theorem parseRest_esc_mid :
    ∀ (f t : List Char),
      parseRest (escListQ f ++ '\x22' :: ',' :: '\x22' :: t) =
        (parseRest t).map (f :: ·) := by
  intro f
  induction f with
  | nil =>
    intro t
    exact parseRest_close_mid t
  | cons c g ih =>
    intro t
    by_cases hc : c = '\x22'
    · subst hc
      show parseRest (('\x22' :: '\x22' :: escListQ g) ++ '\x22' :: ',' :: '\x22' :: t) = _
      show parseRest ('\x22' :: '\x22' :: (escListQ g ++ '\x22' :: ',' :: '\x22' :: t)) = _
      rw [parseRest_esc, ih t]
      cases parseRest t with
      | none => rfl
      | some fs => rfl
    · have hesc : escListQ (c :: g) = c :: escListQ g := by
        simp [escListQ, List.flatMap_cons, if_neg hc]
      rw [hesc]
      show parseRest (c :: (escListQ g ++ '\x22' :: ',' :: '\x22' :: t)) = _
      rw [parseRest_cons_ne c _ hc, ih t]
      cases parseRest t with
      | none => rfl
      | some fs => rfl

/-- Parsing a generated seven-field row at the character level. -/
theorem parseLine_sevenFields (t1 c2 t3 t4 t5 t6 t7 : List Char)
    (h1 : ∀ c ∈ t1, c ≠ '\x22') (h3 : ∀ c ∈ t3, c ≠ '\x22')
    (h4 : ∀ c ∈ t4, c ≠ '\x22') (h5 : ∀ c ∈ t5, c ≠ '\x22')
    (h6 : ∀ c ∈ t6, c ≠ '\x22') (h7 : ∀ c ∈ t7, c ≠ '\x22') :
    parseLine ('\x22' :: (t1 ++ '\x22' :: ',' :: '\x22' :: (escListQ c2 ++
        '\x22' :: ',' :: '\x22' :: (t3 ++ '\x22' :: ',' :: '\x22' :: (t4 ++
        '\x22' :: ',' :: '\x22' :: (t5 ++ '\x22' :: ',' :: '\x22' :: (t6 ++
        '\x22' :: ',' :: '\x22' :: (t7 ++ ['\x22'])))))))) =
      some [t1, c2, t3, t4, t5, t6, t7] := by
  show parseRest _ = _
  rw [parseRest_noquote_mid _ _ h1, parseRest_esc_mid,
    parseRest_noquote_mid _ _ h3, parseRest_noquote_mid _ _ h4,
    parseRest_noquote_mid _ _ h5, parseRest_noquote_mid _ _ h6,
    parseRest_noquote_end _ h7]
  rfl

/-- The characters of a generated CSV row, in the nested shape the parser
consumes. -/
theorem csvRow_data (it : TrackingItem) :
    (csvRow it).data =
      '\x22' :: (it.tracking.data ++ '\x22' :: ',' :: '\x22' :: (escListQ it.carrier.data ++
        '\x22' :: ',' :: '\x22' :: (it.timestamp.data ++ '\x22' :: ',' :: '\x22' ::
        (it.deviceId.data ++ '\x22' :: ',' :: '\x22' :: (it.latitude.data ++
        '\x22' :: ',' :: '\x22' :: (it.longitude.data ++ '\x22' :: ',' :: '\x22' ::
        (it.username.data ++ ['\x22']))))))) := by
  show (quoteField it.tracking ++ "," ++ quoteField (escapeQuotes it.carrier) ++
      "," ++ quoteField it.timestamp ++ "," ++ quoteField it.deviceId ++ "," ++
      quoteField it.latitude ++ "," ++ quoteField it.longitude ++ "," ++
      quoteField it.username).data = _
  simp only [quoteField, escapeQuotes, data_append, quote_data, comma_data,
    List.append_assoc, List.cons_append, List.nil_append]

/-- C3 counterexample: for the record with tracking number `PKG"1` (an embedded
double quote) the generated CSV row does not parse back to the original seven
field values under standard CSV rules — only the carrier column is
quote-escaped, so round-tripping fails for quotes in the other columns. -/
theorem csvRow_roundTrip_fails_on_tracking_quote :
    parseCSVLine (csvRow ⟨"PKG\"1", "UPS", "2024", "Dev", "1", "2", "u"⟩) ≠
      some ["PKG\"1", "UPS", "2024", "Dev", "1", "2", "u"] := by
  decide

/-- C3 (amended): the CSV escaping round-trips for every record whose six
non-carrier fields contain no embedded double quote: parsing the generated row
under standard CSV rules (fields wrapped in double quotes, embedded quotes
doubled, separated by commas) recovers exactly the original seven field values
— the carrier may contain arbitrary embedded double quotes and commas, and the
other fields arbitrary commas, since every field is quoted but only the
carrier is quote-escaped. -/
theorem csvRow_roundTrip (it : TrackingItem)
    (h1 : quoteFree it.tracking) (h3 : quoteFree it.timestamp)
    (h4 : quoteFree it.deviceId) (h5 : quoteFree it.latitude)
    (h6 : quoteFree it.longitude) (h7 : quoteFree it.username) :
    parseCSVLine (csvRow it) =
      some [it.tracking, it.carrier, it.timestamp, it.deviceId, it.latitude,
        it.longitude, it.username] := by
  unfold parseCSVLine
  rw [csvRow_data,
    parseLine_sevenFields it.tracking.data it.carrier.data it.timestamp.data
      it.deviceId.data it.latitude.data it.longitude.data it.username.data
      h1 h3 h4 h5 h6 h7]
  rfl

/-- C3 witness: a record whose carrier contains an embedded double quote and a
comma, and whose other fields contain commas, parses back exactly. -/
theorem csvRow_roundTrip_witness :
    quoteFree "T,1" ∧
      parseCSVLine (csvRow ⟨"T,1", "A\"B,C", "2024", "Dev", "1,5", "2", "u"⟩) =
        some ["T,1", "A\"B,C", "2024", "Dev", "1,5", "2", "u"] :=
  ⟨by decide,
    csvRow_roundTrip ⟨"T,1", "A\"B,C", "2024", "Dev", "1,5", "2", "u"⟩
      (by decide) (by decide) (by decide) (by decide) (by decide) (by decide)⟩

/-- Quote doubling is the identity on quote-free character lists. -/
theorem escListQ_quoteFree :
    ∀ (l : List Char), (∀ c ∈ l, c ≠ '\x22') → escListQ l = l := by
  intro l hl
  induction l with
  | nil => rfl
  | cons c t ih =>
    have hc : ¬ c = '\x22' := hl c (by simp)
    simp only [escListQ, List.flatMap_cons, if_neg hc, List.singleton_append]
    rw [show (t.flatMap fun x => if x = '\x22' then ['\x22', '\x22'] else [x]) =
      escListQ t from rfl, ih (fun e he => hl e (by simp [he]))]

/-- The fold building `csvContent` appends one newline-terminated row per
record. -/
theorem csvContent_foldl (items : List TrackingItem) :
    ∀ acc : String,
      items.foldl (fun acc it => acc ++ csvRow it ++ "\n") acc =
        acc ++ linesJoin (items.map csvRow) := by
  induction items with
  | nil =>
    intro acc
    apply strExt
    simp [linesJoin, data_append]
  | cons it its ih =>
    intro acc
    rw [List.foldl_cons, ih]
    apply strExt
    simp [linesJoin, data_append]

/-- C4 counterexample: for the single record with carrier `A"B`, the generated
CSV text is not the header plus the record's seven raw field values each
wrapped in double quotes — the carrier's embedded double quote is doubled
first. -/
theorem csvContent_not_raw_fields :
    csvContent [⟨"T", "A\"B", "ts", "d", "la", "lo", "u"⟩] ≠
      csvHeader ++ "\n" ++ specRawRow ⟨"T", "A\"B", "ts", "d", "la", "lo", "u"⟩ ++
        "\n" := by
  decide

/-- C4 (amended): for every non-empty record list, `handleExportCSV` produces
CSV text whose first line is exactly the header
`Tracking Number,Carrier,Timestamp,Device ID,Latitude,Longitude,Username` and
whose subsequent lines are, in order, one per record: the record's seven field
values — the carrier with embedded double quotes doubled — each wrapped in
double quotes and separated by commas (for a record whose carrier is
quote-free this is exactly the seven raw values quoted); the download filename
is `tracking_export_<date>.csv` for the formatted current date. -/
theorem csvContent_structure (items : List TrackingItem) (dateStr : String)
    (_hne : items ≠ []) :
    csvContent items = linesJoin (csvHeader :: items.map csvRow) ∧
      (∀ it : TrackingItem,
        csvRow it =
          quoteField it.tracking ++ "," ++ quoteField (escapeQuotes it.carrier) ++
            "," ++ quoteField it.timestamp ++ "," ++ quoteField it.deviceId ++
            "," ++ quoteField it.latitude ++ "," ++ quoteField it.longitude ++
            "," ++ quoteField it.username) ∧
      (∀ it : TrackingItem, quoteFree it.carrier → csvRow it = specRawRow it) ∧
      exportFilename dateStr = "tracking_export_" ++ dateStr ++ ".csv" := by
  refine ⟨?_, fun it => rfl, ?_, rfl⟩
  · show items.foldl _ (csvHeader ++ "\n") = _
    rw [csvContent_foldl]
    apply strExt
    simp [linesJoin, data_append]
  · intro it hq
    have hesc : escapeQuotes it.carrier = it.carrier :=
      strExt (escListQ_quoteFree it.carrier.data hq)
    rw [csvRow, specRawRow, hesc]

/-- C4 witness: a concrete one-record content decomposes into the header line
plus its row. -/
theorem csvContent_structure_witness :
    ([⟨"a", "b", "c", "d", "e", "f", "g"⟩] : List TrackingItem) ≠ [] ∧
      csvContent [⟨"a", "b", "c", "d", "e", "f", "g"⟩] =
        linesJoin (csvHeader :: [csvRow ⟨"a", "b", "c", "d", "e", "f", "g"⟩]) :=
  ⟨by decide,
    by
      have h := (csvContent_structure [⟨"a", "b", "c", "d", "e", "f", "g"⟩] ""
        (by decide)).1
      exact h⟩

/-- `startAfter` on the document at index `i` of a duplicate-free result list
resumes at index `i + 1`. -/
theorem afterDoc_getElem {α : Type} [DecidableEq α] :
    ∀ (l : List α), l.Nodup → ∀ (i : Nat) (hi : i < l.length),
      afterDoc (l.get ⟨i, hi⟩) l = l.drop (i + 1) := by
  intro l
  induction l with
  | nil =>
    intro _ i hi
    simp at hi
  | cons x t ih =>
    intro hnd i hi
    cases i with
    | zero =>
      show afterDoc x (x :: t) = t
      simp [afterDoc]
    | succ j =>
      have hj : j < t.length := by simpa using hi
      have hxt : x ∉ t := (List.nodup_cons.mp hnd).1
      have hne : ¬ x = t.get ⟨j, hj⟩ := by
        intro h
        exact hxt (h ▸ List.get_mem t j hj)
      show afterDoc ((x :: t).get ⟨j + 1, hi⟩) (x :: t) = t.drop (j + 1)
      rw [show (x :: t).get ⟨j + 1, hi⟩ = t.get ⟨j, hj⟩ from rfl]
      simp only [afterDoc, if_neg hne]
      exact ih (List.nodup_cons.mp hnd).2 j hj

/-- The last element of a full length-`n` front slice sits at index `n - 1`. -/
theorem getLast?_take {α : Type} (l : List α) (n : Nat) (hn : 0 < n)
    (hle : n ≤ l.length) : (l.take n).getLast? = l[n - 1]? := by
  rw [List.getLast?_eq_getElem?, List.length_take,
    show min n l.length = n from by omega, List.getElem?_take,
    if_pos (by omega)]

/-- Two non-overlapping index windows of a duplicate-free list share no
element. -/
theorem slices_disjoint {α : Type} (l : List α) (hnd : l.Nodup)
    (a n b m : Nat) (hab : a + n ≤ b) (x : α)
    (hx : x ∈ (l.drop a).take n) : x ∉ (l.drop b).take m := by
  intro hy
  have hx1 : x ∈ l.take (a + n) := by
    have he : (l.drop a).take n = (l.take (a + n)).drop a := by
      rw [List.drop_take]
      congr 1
      omega
    rw [he] at hx
    exact List.mem_of_mem_drop hx
  have hy1 : x ∈ l.drop (a + n) := by
    have hyd : x ∈ l.drop b := List.mem_of_mem_take hy
    have he : l.drop b = (l.drop (a + n)).drop (b - (a + n)) := by
      rw [List.drop_drop]
      congr 1
      omega
    rw [he] at hyd
    exact List.mem_of_mem_drop hyd
  have hsplit : l.take (a + n) ++ l.drop (a + n) = l := List.take_append_drop _ l
  rw [← hsplit] at hnd
  exact (List.disjoint_of_nodup_append hnd) hx1 hy1

/-- One `runPage` call whose effective cursor resumes the result list at index
`a`: the page data is the window `[a, a + p)`, the stored cursor for this page
is the document at index `a + p - 1`, and `hasNext` records whether documents
remain beyond the window. -/
theorem runPage_from {α : Type} [DecidableEq α] (l : List α) (p i a : Nat)
    (s : HookState α) (hp : 0 < p)
    (hcur : startAfterD (s.cursors (i - 1)) l = l.drop a)
    (hlen : a + p ≤ l.length) :
    (runPage l p i s).data = (l.drop a).take p ∧
      (runPage l p i s).page = i ∧
      (runPage l p i s).loading = false ∧
      (runPage l p i s).hasNext = decide (a + p < l.length) ∧
      (runPage l p i s).cursors = setCursor s.cursors i (l[a + p - 1]?) := by
  have hdl : ((l.drop a).take (p + 1)).length = min (p + 1) (l.length - a) := by
    rw [List.length_take, List.length_drop]
  have hiff : p < ((l.drop a).take (p + 1)).length ↔ a + p < l.length := by
    rw [hdl, lt_min_iff]
    omega
  have hdata : (if p < ((l.drop a).take (p + 1)).length
      then ((l.drop a).take (p + 1)).take p
      else (l.drop a).take (p + 1)) = (l.drop a).take p := by
    split
    · rw [List.take_take]
      congr 1
      omega
    · rename_i hmore
      rw [hdl, lt_min_iff] at hmore
      have hlen2 : (l.drop a).length = p := by
        rw [List.length_drop]
        omega
      rw [List.take_of_length_le (by omega), List.take_of_length_le (by omega)]
  refine ⟨?_, ?_, ?_, ?_, ?_⟩
  · show (if p < ((startAfterD (s.cursors (i - 1)) l).take (p + 1)).length
        then ((startAfterD (s.cursors (i - 1)) l).take (p + 1)).take p
        else (startAfterD (s.cursors (i - 1)) l).take (p + 1)) = _
    rw [hcur]
    exact hdata
  · rfl
  · rfl
  · show decide (p < ((startAfterD (s.cursors (i - 1)) l).take (p + 1)).length) = _
    rw [hcur]
    exact decide_eq_decide.mpr hiff
  · show setCursor s.cursors i
        (if p < ((startAfterD (s.cursors (i - 1)) l).take (p + 1)).length
          then ((startAfterD (s.cursors (i - 1)) l).take (p + 1)).take p
          else (startAfterD (s.cursors (i - 1)) l).take (p + 1)).getLast? = _
    rw [hcur, hdata, getLast?_take _ _ hp (by rw [List.length_drop]; omega),
      List.getElem?_drop, show a + (p - 1) = a + p - 1 from by omega]

/-- C8: pagination cursors are monotonic across `nextPage` calls.  For a
duplicate-free backend result list `l` holding at least `k + 1` full pages,
after loading page 1 and invoking `nextPage` `k` times the hook is on page
`k + 1` showing exactly the window `[k*p, k*p + p)` of `l`; the cursor stored
for each visited page `j` is the document at index `j*p - 1` (the last
document of page `j`), so the cursor positions strictly increase along the
effective query order; each page resumed `startAfter` the previous page's
stored cursor, and no document appears on two consecutive pages. -/
theorem nextPage_cursors_monotonic {α : Type} [DecidableEq α] (l : List α)
    (p k : Nat) (hnd : l.Nodup) (hp : 0 < p) (hlen : (k + 1) * p ≤ l.length) :
    (afterNexts l p k).page = k + 1 ∧
      (afterNexts l p k).loading = false ∧
      (afterNexts l p k).hasNext = decide ((k + 1) * p < l.length) ∧
      (afterNexts l p k).data = (l.drop (k * p)).take p ∧
      (∀ j, 1 ≤ j → j ≤ k + 1 → (afterNexts l p k).cursors j = l[j * p - 1]?) ∧
      (∀ j, 2 ≤ j → j ≤ k + 1 → (j - 1) * p - 1 < j * p - 1) ∧
      (∀ j, 1 ≤ j → j ≤ k → ∀ x, x ∈ (afterNexts l p (j - 1)).data →
        x ∉ (afterNexts l p j).data) := by
  induction k with
  | zero =>
    have hone : (0 + 1) * p = p := by ring
    have hzero : (0 : Nat) * p = 0 := by ring
    have h := runPage_from l p 1 0 (initialState α) hp (by rfl) (by omega)
    have hs0 : afterNexts l p 0 = runPage l p 1 (initialState α) := rfl
    rw [← hs0] at h
    refine ⟨h.2.1, h.2.2.1, ?_, ?_, ?_, ?_, ?_⟩
    · rw [h.2.2.2.1]
      exact decide_eq_decide.mpr (by omega)
    · rw [h.1, hzero]
    · intro j hj1 hj2
      have hj : j = 1 := by omega
      subst hj
      rw [show (afterNexts l p 0).cursors = _ from h.2.2.2.2]
      show (if 1 = 1 then l[0 + p - 1]? else (initialState α).cursors 1) = _
      rw [if_pos rfl]
      congr 1
      have hone2 : 1 * p = p := by ring
      omega
    · intro j hj1 hj2
      omega
    · intro j hj1 hj2
      omega
  | succ k ih =>
    have hnorm : (k + 1 + 1) * p = (k + 1) * p + p := by ring
    have hnorm2 : (k + 2) * p = (k + 1) * p + p := by ring
    have hnorm0 : (k + 1) * p = k * p + p := by ring
    have hlen1 : (k + 1) * p ≤ l.length := by omega
    obtain ⟨hpage, hload, hnext, hdata, hcurs, hmono, hdisj⟩ :=
      ih hlen1
    have hnext1 : (afterNexts l p k).hasNext = true := by
      rw [hnext]
      exact decide_eq_true (by omega)
    have hs : afterNexts l p (k + 1) =
        runPage l p ((afterNexts l p k).page + 1) (afterNexts l p k) := by
      show nextPage l p (afterNexts l p k) = _
      unfold nextPage
      rw [hload, hnext1]
      rfl
    have hidx : (k + 1) * p - 1 < l.length := by omega
    have hcur : startAfterD ((afterNexts l p k).cursors
        (((afterNexts l p k).page + 1) - 1)) l = l.drop ((k + 1) * p) := by
      have hc1 : (afterNexts l p k).cursors (k + 1) = l[(k + 1) * p - 1]? :=
        hcurs (k + 1) (by omega) (by omega)
      rw [hpage, Nat.add_sub_cancel, hc1, List.getElem?_eq_getElem hidx]
      show afterDoc (l.get ⟨(k + 1) * p - 1, hidx⟩) l = _
      rw [afterDoc_getElem l hnd ((k + 1) * p - 1) hidx]
      congr 1
      omega
    have h := runPage_from l p ((afterNexts l p k).page + 1) ((k + 1) * p)
      (afterNexts l p k) hp hcur (by omega)
    rw [← hs] at h
    have hpage1 : (afterNexts l p (k + 1)).page = k + 2 := by
      rw [h.2.1, hpage]
    refine ⟨hpage1, h.2.2.1, ?_, h.1, ?_, ?_, ?_⟩
    · rw [h.2.2.2.1]
      exact decide_eq_decide.mpr (by omega)
    · intro j hj1 hj2
      rw [show (afterNexts l p (k + 1)).cursors = _ from h.2.2.2.2]
      by_cases hje : j = k + 2
      · subst hje
        show (if k + 2 = (afterNexts l p k).page + 1 then _ else _) = _
        rw [hpage, if_pos rfl]
        congr 1
        omega
      · show (if j = (afterNexts l p k).page + 1 then _ else _) = _
        rw [hpage, if_neg (by omega)]
        exact hcurs j hj1 (by omega)
    · intro j hj1 hj2
      have hj1p : 1 ≤ (j - 1) * p := by
        calc 1 ≤ p := hp
          _ = 1 * p := (one_mul p).symm
          _ ≤ (j - 1) * p := Nat.mul_le_mul_right p (by omega)
      have hjlt : (j - 1) * p < j * p :=
        Nat.mul_lt_mul_of_pos_right (by omega) hp
      omega
    · intro j hj1 hj2 x hx
      by_cases hje : j = k + 1
      · subst hje
        have he : afterNexts l p (k + 1 - 1) = afterNexts l p k := rfl
        rw [he, hdata] at hx
        rw [h.1]
        exact slices_disjoint l hnd (k * p) p ((k + 1) * p) p (by omega) x hx
      · exact hdisj j hj1 (by omega) x hx

/-- C8 witness: with the seven-document result `[0,…,6]`, page size 2 and one
`nextPage` call, the hook shows page 2 = `[2, 3]`, stores cursors for pages 1
and 2 at the documents `1` and `3`, and shares no document with page 1. -/
theorem nextPage_cursors_monotonic_witness :
    ([0, 1, 2, 3, 4, 5, 6] : List Nat).Nodup ∧
      (afterNexts [0, 1, 2, 3, 4, 5, 6] 2 1).page = 2 ∧
      (afterNexts [0, 1, 2, 3, 4, 5, 6] 2 1).data = [2, 3] ∧
      (afterNexts [0, 1, 2, 3, 4, 5, 6] 2 1).cursors 1 = some 1 ∧
      (afterNexts [0, 1, 2, 3, 4, 5, 6] 2 1).cursors 2 = some 3 := by
  have h := nextPage_cursors_monotonic ([0, 1, 2, 3, 4, 5, 6] : List Nat) 2 1
    (by decide) (by decide) (by decide)
  refine ⟨by decide, h.1, ?_, ?_, ?_⟩
  · rw [h.2.2.2.1]
    decide
  · rw [h.2.2.2.2.1 1 (by decide) (by decide)]
    decide
  · rw [h.2.2.2.2.1 2 (by decide) (by decide)]
    decide

end MunByn
